import Mathlib

/-!
Verification of the completion client in `complete.py`.

The Python source is shallowly embedded below.  Python strings are modelled
as `List Char`; JSON-like response payloads as the inductive `Value`;
exceptions as the inductive `PyErr` together with `Except` / explicit error
components; the stateful zero-argument callables wrapped by `Supplier` as
state transformers `σ → Value × σ`.

All string operations used by the source act on the characters that occur in
its data (ASCII plus newline); `pyIsSpace` therefore models Python's
`str.strip` whitespace set by its ASCII members.
-/

namespace Complete

/-- Whitespace characters recognised by Python's `str.strip()` (ASCII part). -/
def pyIsSpace (c : Char) : Bool :=
  c == ' ' || c == '\t' || c == '\n' || c == '\r' || c == '\x0b' || c == '\x0c'

/-- Model of Python `s.strip()`: drop leading and trailing whitespace. -/
def pyStrip (cs : List Char) : List Char :=
  ((cs.dropWhile pyIsSpace).reverse.dropWhile pyIsSpace).reverse

/-- Model of Python `s.replace('\n', ' ')`. -/
def replaceNl (cs : List Char) : List Char :=
  cs.map fun c => if c = '\n' then ' ' else c

/-- Single pass implementing `re.split(r'\n{2,}', text)`: `pending` counts
newline characters read but not yet classified, `cur` is the piece being
accumulated.  A maximal run of two or more newlines separates pieces; a
single newline stays inside its piece. -/
def spGo : List Char → Nat → List Char → List (List Char)
  | [], pending, cur =>
    if 2 ≤ pending then [cur, []] else [cur ++ List.replicate pending '\n']
  | c :: rest, pending, cur =>
    if c = '\n' then spGo rest (pending + 1) cur
    else if 2 ≤ pending then cur :: spGo rest 0 [c]
    else spGo rest 0 (cur ++ List.replicate pending '\n' ++ [c])

/-- Model of `_PARA_BREAK.split(text)` where `_PARA_BREAK = re.compile(r'\n{2,}')`. -/
def splitParas (cs : List Char) : List (List Char) :=
  spGo cs 0 []

/-- Model of `_normalize_paragraphs` from `complete.py`:
`'\n'.join(para.strip().replace('\n', ' ') for para in _PARA_BREAK.split(text))`. -/
def _normalize_paragraphs (cs : List Char) : List Char :=
  List.intercalate ['\n'] ((splitParas cs).map fun para => replaceNl (pyStrip para))

/-- `true` when the text contains no two consecutive newline characters,
i.e. no paragraph break. -/
def noDoubleNl : List Char → Bool
  | [] => true
  | [_] => true
  | c1 :: c2 :: rest =>
    if c1 = '\n' ∧ c2 = '\n' then false else noDoubleNl (c2 :: rest)

example : splitParas "a\n\n\nb".toList = ["a".toList, "b".toList] := by decide
example : splitParas "\n\na".toList = ["".toList, "a".toList] := by decide
example : splitParas "a\nb".toList = ["a\nb".toList] := by decide
example : splitParas "a\n\n".toList = ["a".toList, "".toList] := by decide
example : splitParas "a\n".toList = ["a\n".toList] := by decide
example : _normalize_paragraphs "a\n\nb".toList = "a\nb".toList := by decide
example : _normalize_paragraphs "a\nb".toList = "a b".toList := by decide
example : _normalize_paragraphs "  hi\nthere\n\n\nbye  ".toList = "hi there\nbye".toList := by
  decide
example : _normalize_paragraphs "\n\na".toList = "\na".toList := by decide

/-- Model of Python `s.split('\n')` (splitting at every single newline,
keeping empty pieces, as `str.split` with an explicit separator does). -/
def splitOnNl (cs : List Char) : List (List Char) :=
  cs.splitOn '\n'

/-- The whitespace-separated words of a text (Python `s.split()` with no
separator: the maximal runs of non-whitespace characters). -/
def wordsOf (cs : List Char) : List (List Char) :=
  (cs.splitOnP pyIsSpace).filter fun w => !w.isEmpty

/-- Modelled from the spec: the fixed target line width of the Text
Formatter's word-wrapping (the default width of `textwrap.wrap`, which is
external library code not part of this repository). -/
def wrapWidth : Nat := 70

/-- Modelled from the spec: greedy word-wrapping.  `line` is the current
line (a nonempty list of words) and `len` its rendered length (word lengths
plus single separating spaces).  A word is appended to the current line when
it still fits within `width`; otherwise it opens a new line. -/
def wrapGo (width : Nat) : List (List Char) → List (List Char) → Nat → List (List (List Char))
  | [], line, _ => [line]
  | w :: ws, line, len =>
    if len + 1 + w.length ≤ width then wrapGo width ws (line ++ [w]) (len + 1 + w.length)
    else line :: wrapGo width ws [w] w.length

/-- The greedily wrapped lines of a text, each line a list of words. -/
def wrapLines (cs : List Char) : List (List (List Char)) :=
  match wordsOf cs with
  | [] => []
  | w :: ws => wrapGo wrapWidth ws [w] w.length

/-- Modelled from the spec: `textwrap.wrap` as greedy word-wrapping of the
text's whitespace-separated words to the fixed target width (`textwrap` is
Python standard-library code, external to this repository; the spec
describes the operation as greedy word-wrapping to a fixed line width). -/
def textwrapWrap (cs : List Char) : List (List Char) :=
  (wrapLines cs).map (List.intercalate [' '])

/-- One paragraph of the display output: `'\n'.join(textwrap.wrap(graf))`. -/
def prettyPara (graf : List Char) : List Char :=
  List.intercalate ['\n'] (textwrapWrap graf)

/-- Model of `_prettify_paragraphs` from `complete.py`:
`'\n\n'.join('\n'.join(textwrap.wrap(graf)) for graf in text.strip().split('\n'))`. -/
def _prettify_paragraphs (cs : List Char) : List Char :=
  List.intercalate ['\n', '\n'] ((splitOnNl (pyStrip cs)).map prettyPara)

example : _prettify_paragraphs "ab cd\nef".toList = "ab cd\n\nef".toList := by decide

/-- JSON-like Python values: the payloads exchanged with the transport and
the values stored as parameters.  `vfloat` carries the exact rational value
of the Python float (the floats occurring in the source, such as 0.75, are
exactly representable). -/
inductive Value where
  | vstr (s : List Char)
  | vint (n : Int)
  | vbool (b : Bool)
  | vfloat (q : Rat)
  | vnone
  | vlist (vs : List Value)
  | vdict (kvs : List (String × Value))

/-- The exceptions the embedded code can raise.  `completionError` models
`CompletionError` (carrying the service's message sequence, the `*errors`
arguments), `unexpectedResponseError` models `UnexpectedResponseError`
(carrying the raw payload). -/
inductive PyErr where
  | typeError (msg : String)
  | valueError (msg : String)
  | completionError (messages : List Value)
  | unexpectedResponseError (response : Value)

/-- First-match association lookup: Python `d[k]` / mapping-pattern key
lookup on a dict (whose keys are unique). -/
def findKey (kvs : List (String × Value)) (k : String) : Option Value :=
  match kvs with
  | [] => none
  | (k', v) :: rest => if k' = k then some v else findKey rest k

/-- The verdict of the response interpreter (the `match` in
`Completer.complete`). -/
inductive Outcome where
  | success (completion : Value)
  | serviceError (messages : List Value)
  | malformed (response : Value)

/-- The second and third cases of the `match` in `Completer.complete`:
`case {'error': [*errors]}` (a mapping whose key `'error'` holds a sequence
— in Python pattern matching a `str` is not a sequence) and the
catch-all `case other_response`. -/
def checkError (r : Value) : Outcome :=
  match r with
  | .vdict kvs =>
    match findKey kvs "error" with
    | some (.vlist msgs) => .serviceError msgs
    | _ => .malformed r
  | _ => .malformed r

/-- The full `match` in `Completer.complete`: `case [{'generated_text':
completion}]` — a sequence of exactly one element, that element a mapping
containing key `'generated_text'` — is tried first, then the error case,
then the catch-all. -/
def interpret (r : Value) : Outcome :=
  match r with
  | .vlist vs =>
    match vs with
    | [item] =>
      match item with
      | .vdict kvs =>
        match findKey kvs "generated_text" with
        | some c => .success c
        | none => checkError r
      | _ => checkError r
    | _ => checkError r
  | _ => checkError r

example : interpret (.vlist [.vdict [("generated_text", .vstr "hi".toList)]])
    = .success (.vstr "hi".toList) := rfl
example : interpret (.vdict [("error", .vlist [.vstr "rate limited".toList])])
    = .serviceError [.vstr "rate limited".toList] := rfl
example : interpret (.vdict [("error", .vstr "rate limited".toList)])
    = .malformed (.vdict [("error", .vstr "rate limited".toList)]) := rfl
example : interpret (.vdict [("unexpected", .vstr "shape".toList)])
    = .malformed (.vdict [("unexpected", .vstr "shape".toList)]) := rfl

/-- A parameter value as stored in `Completer.__dict__`: either a plain
value, or a `Supplier` wrapping a zero-argument callable.  The callable's
side effects (e.g. consuming randomness) are modelled by explicit state
passing: `σ → Value × σ`. -/
inductive ParamValue (σ : Type) where
  | plain (v : Value)
  | supplier (func : σ → Value × σ)

/-- Lexicographic comparison of character lists by code point: the order
Python's `sorted` uses on the (distinct) parameter-name strings. -/
def charsLe : List Char → List Char → Bool
  | [], _ => true
  | _ :: _, [] => false
  | a :: as, b :: bs =>
    if a.toNat < b.toNat then true
    else if b.toNat < a.toNat then false
    else charsLe as bs

/-- Name comparison on parameter entries. -/
def nameLe {α : Type} (p q : String × α) : Bool :=
  charsLe p.1.data q.1.data

/-- Insert one entry into a name-sorted list. -/
def insertParam {α : Type} (p : String × α) : List (String × α) → List (String × α)
  | [] => [p]
  | q :: rest => if nameLe p q then p :: q :: rest else q :: insertParam p rest

/-- Sort the parameter entries by name: models `sorted(self.__dict__.items())`
(Python compares the pairs, which on a dict's distinct keys is ordering by
name alone). -/
def sortParams {α : Type} : List (String × α) → List (String × α)
  | [] => []
  | p :: rest => insertParam p (sortParams rest)

/-- Resolve each entry in order, threading the callables' state from left to
right: a `Supplier` value is called (`value()`), a plain value passes
through unchanged. -/
def resolveAll {σ : Type} : List (String × ParamValue σ) → σ → List (String × Value) × σ
  | [], s => ([], s)
  | (n, .plain v) :: rest, s =>
    let r := resolveAll rest s
    ((n, v) :: r.1, r.2)
  | (n, .supplier f) :: rest, s =>
    let fv := f s
    let r := resolveAll rest fv.2
    ((n, fv.1) :: r.1, r.2)

/-- The completer's state.  `_text` holds the buffer (`self._text`; a
`Value` because `complete` assigns the response's field to it directly,
whatever it is); `pdict` models `self.__dict__`, which holds exactly the
parameters — `_inference` and `_text` live in `__slots__`, so they never
appear in `__dict__`. -/
structure Completer (σ : Type) where
  _text : Value
  pdict : List (String × ParamValue σ)

/-- The `text` property getter: returns `self._text`. -/
def Completer.text {σ : Type} (self : Completer σ) : Value :=
  self._text

/-- Model of `Completer._build_params`: resolve every `Supplier` by calling
it and pass plain values through, iterating `sorted(self.__dict__.items())`. -/
def Completer._build_params {σ : Type} (self : Completer σ) (s : σ) :
    List (String × Value) × σ :=
  resolveAll (sortParams self.pdict) s

/-- The `text` property setter: rejects non-strings (`TypeError`) and empty
strings (`ValueError`), otherwise stores the value. -/
def Completer.setText {σ : Type} (self : Completer σ) (value : Value) :
    Except PyErr (Completer σ) :=
  match value with
  | .vstr cs =>
    if cs = [] then .error (.valueError "prompt must be nonempty")
    else .ok { self with _text := .vstr cs }
  | _ => .error (.typeError "prompt must be a string")

/-- Model of `Completer._set_defaults`: the default parameter bundle, in
`__dict__` insertion order.  `rand` is the stateful callable wrapped by the
seed's `Supplier` (`functools.partial(random.randrange, 2**64)`); 0.75 is
exactly representable as a float, so `vfloat (3 / 4)` is its exact value. -/
def defaultParams {σ : Type} (rand : σ → Value × σ) : List (String × ParamValue σ) :=
  [("do_sample", .plain (.vbool true)),
   ("max_new_tokens", .plain (.vint 250)),
   ("seed", .supplier rand),
   ("temperature", .plain (.vfloat (3 / 4)))]

/-- Python dict assignment `d[k] = v`: replace the value in place if the key
is present, else append the new entry. -/
def setKey {α : Type} : List (String × α) → String → α → List (String × α)
  | [], k, v => [(k, v)]
  | (k', v') :: rest, k, v =>
    if k' = k then (k, v) :: rest else (k', v') :: setKey rest k v

/-- Python `d.update(kvs)`: apply each assignment in order. -/
def dictUpdate {α : Type} (d : List (String × α)) : List (String × α) → List (String × α)
  | [] => d
  | (k, v) :: rest => dictUpdate (setKey d k v) rest

/-- Does the parameter name start with the reserved marker, a leading
underscore?  Models `name.startswith('_')`. -/
def startsUnderscore (n : String) : Bool :=
  match n.data with
  | '_' :: _ => true
  | _ => false

/-- Model of `Completer.__init__`, in source order: obtain the transport
handle (an external collaborator, not modelled as fallible here), assign
`self.text = _normalize_paragraphs(prompt)` (for a non-string prompt,
`re.split` raises `TypeError` before the setter runs; for a prompt that
normalizes to the empty string, the setter raises `ValueError`), reject any
override name with a leading underscore (`TypeError`), then seed the
defaults and apply the overrides on top.  A raised error means construction
fails: the caller receives no object. -/
def initCompleter {σ : Type} (rand : σ → Value × σ) (prompt : Value)
    (parameters : List (String × ParamValue σ)) : Except PyErr (Completer σ) :=
  match prompt with
  | .vstr cs =>
    let t := _normalize_paragraphs cs
    if t = [] then .error (.valueError "prompt must be nonempty")
    else if parameters.any fun pr => startsUnderscore pr.1 then
      .error (.typeError "cannot set parameter name with leading \"_\"")
    else .ok { _text := .vstr t, pdict := dictUpdate (defaultParams rand) parameters }
  | _ => .error (.typeError "expected string or bytes-like object")

/-- Dispatch on the interpreted response, as the three `case` arms of
`Completer.complete` do: on success assign `self._text = completion`
directly (no setter, no validation, no normalization); on a service error
raise `CompletionError(*errors)`; otherwise raise
`UnexpectedResponseError(other_response)`.  A raised error leaves the state
unchanged. -/
def completeStep {σ : Type} (self : Completer σ) (s : σ) :
    Outcome → Completer σ × σ × Option PyErr
  | .success c => ({ self with _text := c }, s, none)
  | .serviceError msgs => (self, s, some (.completionError msgs))
  | .malformed r => (self, s, some (.unexpectedResponseError r))

/-- Model of `Completer.complete`: build the request parameters (calling
every `Supplier` once, which threads the callables' state), invoke the
transport with `inputs=self.text` and the built parameters, and dispatch on
the response's shape.  The Python method returns `None`; the model's value
is the (possibly updated) object state, the callables' state, and the
raised error if any. -/
def Completer.complete {σ : Type} (transport : Value → List (String × Value) → Value)
    (self : Completer σ) (s : σ) : Completer σ × σ × Option PyErr :=
  let pr := self._build_params s
  completeStep self pr.2 (interpret (transport self.text pr.1))

/-- The success shape of a response: a single-element sequence containing a
mapping with key `generated_text`. -/
def isSuccessShape (r : Value) : Prop :=
  ∃ kvs c, r = .vlist [.vdict kvs] ∧ findKey kvs "generated_text" = some c

/-- The service-error shape of a response: a mapping whose key `error`
holds a sequence of messages. -/
def isServiceErrorShape (r : Value) : Prop :=
  ∃ kvs msgs, r = .vdict kvs ∧ findKey kvs "error" = some (.vlist msgs)

theorem interpret_success {kvs : List (String × Value)} {c : Value}
    (h : findKey kvs "generated_text" = some c) :
    interpret (.vlist [.vdict kvs]) = .success c := by
  simp [interpret, h]

theorem checkError_service {kvs : List (String × Value)} {msgs : List Value}
    (h : findKey kvs "error" = some (.vlist msgs)) :
    checkError (.vdict kvs) = .serviceError msgs := by
  simp [checkError, h]

theorem interpret_dict (kvs : List (String × Value)) :
    interpret (.vdict kvs) = checkError (.vdict kvs) := rfl

theorem checkError_dict (kvs : List (String × Value)) :
    checkError (.vdict kvs)
      = (match findKey kvs "error" with
         | some (.vlist msgs) => Outcome.serviceError msgs
         | _ => Outcome.malformed (.vdict kvs)) := rfl

theorem interpret_eq_malformed (r : Value) (h1 : ¬ isSuccessShape r)
    (h2 : ¬ isServiceErrorShape r) : interpret r = .malformed r := by
  cases r with
  | vstr s => rfl
  | vint n => rfl
  | vbool b => rfl
  | vfloat q => rfl
  | vnone => rfl
  | vdict kvs =>
    rw [interpret_dict, checkError_dict]
    cases hf : findKey kvs "error" with
    | none => rfl
    | some v =>
      cases v with
      | vlist msgs => exact absurd ⟨kvs, msgs, rfl, hf⟩ h2
      | vstr s => rfl
      | vint n => rfl
      | vbool b => rfl
      | vfloat q => rfl
      | vnone => rfl
      | vdict kvs2 => rfl
  | vlist vs =>
    match vs with
    | [] => rfl
    | v1 :: v2 :: t => rfl
    | [v] =>
      cases v with
      | vdict kvs =>
        cases hf : findKey kvs "generated_text" with
        | some c => exact absurd ⟨kvs, c, rfl, hf⟩ h1
        | none => simp [interpret, hf, checkError]
      | vstr s => rfl
      | vint n => rfl
      | vbool b => rfl
      | vfloat q => rfl
      | vnone => rfl
      | vlist vs2 => rfl

/-- Claim C1: for every session state and every transport response of the
shape "single-element sequence containing a mapping with key
`generated_text`", `complete()` raises no error and replaces the session's
buffer wholesale with exactly the value of that `generated_text` field,
verbatim, with no normalization re-applied; nothing else of the session
changes (the Python method returns `None`: its only observable effect is
the state mutation). -/
theorem C1_success_replaces_buffer_verbatim {σ : Type}
    (transport : Value → List (String × Value) → Value) (st : Completer σ) (s : σ)
    (kvs : List (String × Value)) (c : Value)
    (hresp : transport st.text (st._build_params s).1 = .vlist [.vdict kvs])
    (hkey : findKey kvs "generated_text" = some c) :
    Completer.complete transport st s = ({ st with _text := c }, (st._build_params s).2, none) := by
  show completeStep st (st._build_params s).2
      (interpret (transport st.text (st._build_params s).1))
    = ({ st with _text := c }, (st._build_params s).2, none)
  rw [hresp, interpret_success hkey]
  rfl

/-- A transport stub that ignores its arguments and returns a fixed payload. -/
def constTransport (r : Value) : Value → List (String × Value) → Value :=
  fun _ _ => r

/-- A concrete stateful callable for the seed parameter, over trivial state. -/
def unitRand : Unit → Value × Unit := fun u => (.vint 7, u)

/-- A concrete session state used to instantiate the theorems. -/
def sampleCompleter : Completer Unit :=
  { _text := .vstr "Hi there".toList, pdict := defaultParams unitRand }

theorem C1_witness :
    (constTransport (.vlist [.vdict [("generated_text", .vstr "Hello world".toList)]])
        sampleCompleter.text ((sampleCompleter._build_params ()).1)
      = .vlist [.vdict [("generated_text", .vstr "Hello world".toList)]])
    ∧ Completer.complete
        (constTransport (.vlist [.vdict [("generated_text", .vstr "Hello world".toList)]]))
        sampleCompleter ()
      = ({ sampleCompleter with _text := .vstr "Hello world".toList },
         (sampleCompleter._build_params ()).2, none) :=
  ⟨rfl, C1_success_replaces_buffer_verbatim _ _ _ _ _ rfl rfl⟩

/-- Claim C2: for every session state and every transport response that is
a mapping with key `error` holding a sequence of messages, `complete()`
raises `CompletionError` carrying exactly those messages; for every
response matching neither the success nor the service-error shape,
`complete()` raises the unexpected-response error carrying that exact
payload; in both error cases the session state — in particular the buffer
text — is returned unchanged (a request fully succeeds or fully fails). -/
theorem C2_error_paths_raise_and_leave_buffer {σ : Type}
    (transport : Value → List (String × Value) → Value) (st : Completer σ) (s : σ) :
    (∀ kvs msgs, transport st.text (st._build_params s).1 = .vdict kvs →
        findKey kvs "error" = some (.vlist msgs) →
        Completer.complete transport st s
          = (st, (st._build_params s).2, some (.completionError msgs)))
    ∧ (∀ r, transport st.text (st._build_params s).1 = r → ¬ isSuccessShape r →
        ¬ isServiceErrorShape r →
        Completer.complete transport st s
          = (st, (st._build_params s).2, some (.unexpectedResponseError r))) := by
  constructor
  · intro kvs msgs hresp hkey
    show completeStep st (st._build_params s).2
        (interpret (transport st.text (st._build_params s).1))
      = (st, (st._build_params s).2, some (.completionError msgs))
    rw [hresp, interpret_dict, checkError_service hkey]
    rfl
  · intro r hresp h1 h2
    show completeStep st (st._build_params s).2
        (interpret (transport st.text (st._build_params s).1))
      = (st, (st._build_params s).2, some (.unexpectedResponseError r))
    rw [hresp, interpret_eq_malformed r h1 h2]
    rfl

theorem C2_witness :
    (Completer.complete (constTransport (.vdict [("error", .vlist [.vstr "rate limited".toList])]))
        sampleCompleter ()
      = (sampleCompleter, (sampleCompleter._build_params ()).2,
         some (.completionError [.vstr "rate limited".toList])))
    ∧ (Completer.complete (constTransport (.vdict [("unexpected", .vstr "shape".toList)]))
        sampleCompleter ()
      = (sampleCompleter, (sampleCompleter._build_params ()).2,
         some (.unexpectedResponseError (.vdict [("unexpected", .vstr "shape".toList)])))) := by
  constructor
  · exact (C2_error_paths_raise_and_leave_buffer
      (constTransport (.vdict [("error", .vlist [.vstr "rate limited".toList])]))
      sampleCompleter ()).1 _ _ rfl rfl
  · refine (C2_error_paths_raise_and_leave_buffer
      (constTransport (.vdict [("unexpected", .vstr "shape".toList)]))
      sampleCompleter ()).2 _ rfl ?_ ?_
    · rintro ⟨kvs, c, heq, -⟩
      cases heq
    · rintro ⟨kvs, msgs, heq, hf⟩
      cases heq
      rw [show findKey [("unexpected", Value.vstr "shape".toList)] "error" = none from rfl] at hf
      cases hf

/-- Claim C10: a response that is a mapping whose `error` key holds a
single string rather than a sequence of messages is classified as
malformed: `complete()` raises the unexpected-response error carrying the
whole payload, not a service error (in Python pattern matching, a `str`
does not match the sequence pattern `[*errors]`). -/
theorem C10_error_string_payload_is_malformed {σ : Type}
    (transport : Value → List (String × Value) → Value) (st : Completer σ) (s : σ)
    (kvs : List (String × Value)) (msg : List Char)
    (hresp : transport st.text (st._build_params s).1 = .vdict kvs)
    (hkey : findKey kvs "error" = some (.vstr msg)) :
    Completer.complete transport st s
      = (st, (st._build_params s).2,
         some (.unexpectedResponseError (.vdict kvs))) := by
  show completeStep st (st._build_params s).2
      (interpret (transport st.text (st._build_params s).1))
    = (st, (st._build_params s).2, some (.unexpectedResponseError (.vdict kvs)))
  rw [hresp, interpret_dict, checkError_dict, hkey]
  rfl

theorem C10_witness :
    (findKey [("error", Value.vstr "rate limited".toList)] "error"
      = some (.vstr "rate limited".toList))
    ∧ Completer.complete (constTransport (.vdict [("error", .vstr "rate limited".toList)]))
        sampleCompleter ()
      = (sampleCompleter, (sampleCompleter._build_params ()).2,
         some (.unexpectedResponseError (.vdict [("error", .vstr "rate limited".toList)]))) :=
  ⟨rfl, C10_error_string_payload_is_malformed _ _ _ _ _ rfl rfl⟩

theorem initCompleter_vstr {σ : Type} (rand : σ → Value × σ) (cs : List Char)
    (parameters : List (String × ParamValue σ)) :
    initCompleter rand (.vstr cs) parameters
      = (if _normalize_paragraphs cs = [] then .error (.valueError "prompt must be nonempty")
         else if parameters.any fun pr => startsUnderscore pr.1 then
           .error (.typeError "cannot set parameter name with leading \"_\"")
         else .ok { _text := .vstr (_normalize_paragraphs cs),
                    pdict := dictUpdate (defaultParams rand) parameters }) := rfl

/-- Claim C8: constructing a session with an empty string prompt fails with
a usage error (`ValueError`: the normalized prompt is empty, rejected by the
`text` setter), and constructing with a non-string prompt fails with a
usage error (`TypeError`, raised by `re.split` inside
`_normalize_paragraphs`); both are raised synchronously at construction. -/
theorem C8_construction_usage_errors {σ : Type} (rand : σ → Value × σ)
    (parameters : List (String × ParamValue σ)) :
    initCompleter rand (.vstr []) parameters = .error (.valueError "prompt must be nonempty")
    ∧ ∀ v : Value, (∀ cs, v ≠ .vstr cs) →
        initCompleter rand v parameters
          = .error (.typeError "expected string or bytes-like object") := by
  refine ⟨rfl, ?_⟩
  intro v hv
  cases v with
  | vstr cs => exact absurd rfl (hv cs)
  | vint n => rfl
  | vbool b => rfl
  | vfloat q => rfl
  | vnone => rfl
  | vlist vs => rfl
  | vdict kvs => rfl

theorem C8_witness :
    (∀ cs, (Value.vint 3) ≠ .vstr cs)
    ∧ initCompleter unitRand (.vstr []) [] = .error (.valueError "prompt must be nonempty")
    ∧ initCompleter unitRand (.vint 3) []
        = .error (.typeError "expected string or bytes-like object") :=
  ⟨(fun _ h => nomatch h),
   (C8_construction_usage_errors unitRand []).1,
   (C8_construction_usage_errors unitRand []).2 _ (fun _ h => nomatch h)⟩

/-- Claim C9: constructing a session with any override parameter whose name
begins with the reserved marker (a leading underscore) fails: the caller
receives no constructed object, and when the prompt itself is acceptable
the failure is precisely the usage error (`TypeError`) for the reserved
name.  A raised constructor error means no (partial) state is retained by
the caller. -/
theorem C9_underscore_override_rejected {σ : Type} (rand : σ → Value × σ)
    (prompt : Value) (parameters : List (String × ParamValue σ))
    (h : (parameters.any fun pr => startsUnderscore pr.1) = true) :
    (∀ st, initCompleter rand prompt parameters ≠ .ok st)
    ∧ (∀ cs, prompt = .vstr cs → _normalize_paragraphs cs ≠ [] →
        initCompleter rand prompt parameters
          = .error (.typeError "cannot set parameter name with leading \"_\"")) := by
  cases prompt with
  | vstr cs =>
    by_cases ht : _normalize_paragraphs cs = []
    · constructor
      · intro st hok
        rw [initCompleter_vstr, if_pos ht] at hok
        cases hok
      · intro cs' heq hne
        cases heq
        exact absurd ht hne
    · have hres : initCompleter rand (.vstr cs) parameters
          = .error (.typeError "cannot set parameter name with leading \"_\"") := by
        rw [initCompleter_vstr, if_neg ht, if_pos h]
      constructor
      · intro st hok
        rw [hres] at hok
        cases hok
      · intro cs' heq hne
        cases heq
        exact hres
  | vint n => exact ⟨(fun _ hok => nomatch hok), (fun _ heq => nomatch heq)⟩
  | vbool b => exact ⟨(fun _ hok => nomatch hok), (fun _ heq => nomatch heq)⟩
  | vfloat q => exact ⟨(fun _ hok => nomatch hok), (fun _ heq => nomatch heq)⟩
  | vnone => exact ⟨(fun _ hok => nomatch hok), (fun _ heq => nomatch heq)⟩
  | vlist vs => exact ⟨(fun _ hok => nomatch hok), (fun _ heq => nomatch heq)⟩
  | vdict kvs => exact ⟨(fun _ hok => nomatch hok), (fun _ heq => nomatch heq)⟩

theorem C9_witness :
    (([("_seed", ParamValue.plain (Value.vint 1) (σ := Unit))].any
        fun pr => startsUnderscore pr.1) = true)
    ∧ initCompleter unitRand (.vstr "Hi".toList) [("_seed", .plain (.vint 1))]
        = .error (.typeError "cannot set parameter name with leading \"_\"") :=
  ⟨rfl,
   (C9_underscore_override_rejected unitRand (.vstr "Hi".toList)
     [("_seed", .plain (.vint 1))] rfl).2 _ rfl (fun h => nomatch h)⟩

/-- Claim C4 as stated is false: a successful `complete()` assigns
`self._text = completion` directly, bypassing the validating `text` setter
(the source comments "Whatever BLOOM returns, we accept").  With the
transport returning `[{'generated_text': ''}]`, `complete()` raises no
error and leaves the session's buffer equal to the empty string, violating
the claimed always-non-empty-string invariant. -/
theorem C4_counterexample :
    (Completer.complete (constTransport (.vlist [.vdict [("generated_text", .vstr [])]]))
        sampleCompleter ()).2.2 = none
    ∧ (Completer.complete (constTransport (.vlist [.vdict [("generated_text", .vstr [])]]))
        sampleCompleter ()).1._text = .vstr []
    ∧ Value.vstr [] ≠ .vstr "Hi there".toList :=
  ⟨rfl, rfl, fun h => nomatch ((Value.vstr.injEq _ _).mp h)⟩

/-- Claim C4, amended: the `text` setter accepts a value exactly when it is
a non-empty string, and construction establishes a non-empty string buffer;
but the buffer replacement performed by a successful `complete()` bypasses
the setter and stores the response's `generated_text` value verbatim, with
no validation, so it may leave the buffer empty or non-string. -/
theorem C4_amended_setter_validates_but_complete_bypasses {σ : Type} :
    (∀ (st : Completer σ) (v : Value),
        (∃ st', st.setText v = .ok st') ↔ ∃ cs, v = .vstr cs ∧ cs ≠ [])
    ∧ (∀ (rand : σ → Value × σ) (prompt : Value)
        (parameters : List (String × ParamValue σ)) (st : Completer σ),
        initCompleter rand prompt parameters = .ok st →
        ∃ cs, st._text = .vstr cs ∧ cs ≠ [])
    ∧ (∀ (transport : Value → List (String × Value) → Value) (st : Completer σ) (s : σ)
        (kvs : List (String × Value)) (c : Value),
        transport st.text (st._build_params s).1 = .vlist [.vdict kvs] →
        findKey kvs "generated_text" = some c →
        (Completer.complete transport st s).1._text = c
          ∧ (Completer.complete transport st s).2.2 = none) := by
  refine ⟨?_, ?_, ?_⟩
  · intro st v
    constructor
    · rintro ⟨st', hok⟩
      cases v with
      | vstr cs =>
        by_cases hcs : cs = []
        · rw [show st.setText (.vstr cs) = if cs = [] then
              .error (.valueError "prompt must be nonempty")
              else .ok { st with _text := .vstr cs } from rfl, if_pos hcs] at hok
          cases hok
        · exact ⟨cs, rfl, hcs⟩
      | vint n => exact nomatch hok
      | vbool b => exact nomatch hok
      | vfloat q => exact nomatch hok
      | vnone => exact nomatch hok
      | vlist vs => exact nomatch hok
      | vdict kvs => exact nomatch hok
    · rintro ⟨cs, rfl, hcs⟩
      refine ⟨{ st with _text := .vstr cs }, ?_⟩
      rw [show st.setText (.vstr cs) = if cs = [] then
          .error (.valueError "prompt must be nonempty")
          else .ok { st with _text := .vstr cs } from rfl, if_neg hcs]
  · intro rand prompt parameters st hok
    cases prompt with
    | vstr cs =>
      rw [initCompleter_vstr] at hok
      by_cases ht : _normalize_paragraphs cs = []
      · rw [if_pos ht] at hok
        cases hok
      · rw [if_neg ht] at hok
        by_cases hu : (parameters.any fun pr => startsUnderscore pr.1) = true
        · rw [if_pos hu] at hok
          cases hok
        · rw [if_neg hu] at hok
          cases hok
          exact ⟨_normalize_paragraphs cs, rfl, ht⟩
    | vint n => exact nomatch hok
    | vbool b => exact nomatch hok
    | vfloat q => exact nomatch hok
    | vnone => exact nomatch hok
    | vlist vs => exact nomatch hok
    | vdict kvs => exact nomatch hok
  · intro transport st s kvs c hresp hkey
    have hcomp : Completer.complete transport st s
        = ({ st with _text := c }, (st._build_params s).2, none) := by
      show completeStep st (st._build_params s).2
          (interpret (transport st.text (st._build_params s).1)) = _
      rw [hresp, interpret_success hkey]
      rfl
    rw [hcomp]
    exact ⟨rfl, rfl⟩

/-- The head of the list, if there is one, is not whitespace. -/
def headNotWs (l : List Char) : Bool :=
  match l with
  | [] => true
  | c :: _ => !pyIsSpace c

theorem headNotWs_dropWhile (l : List Char) :
    headNotWs (l.dropWhile pyIsSpace) = true := by
  induction l with
  | nil => rfl
  | cons c t ih =>
    by_cases h : pyIsSpace c = true
    · rw [List.dropWhile_cons_of_pos h]
      exact ih
    · rw [List.dropWhile_cons_of_neg h]
      simp [headNotWs, h]

theorem dropWhile_eq_self_of_headNotWs {l : List Char} (h : headNotWs l = true) :
    l.dropWhile pyIsSpace = l := by
  cases l with
  | nil => rfl
  | cons c t =>
    have hc : pyIsSpace c = false := by simpa [headNotWs] using h
    exact List.dropWhile_cons_of_neg (by simp [hc])

theorem headNotWs_rstrip {l : List Char} (h : headNotWs l = true) :
    headNotWs ((l.reverse.dropWhile pyIsSpace).reverse) = true := by
  cases l with
  | nil => rfl
  | cons c t =>
    have hc : pyIsSpace c = false := by simpa [headNotWs] using h
    rw [List.reverse_cons, List.dropWhile_append]
    by_cases he : (t.reverse.dropWhile pyIsSpace).isEmpty = true
    · rw [if_pos he, List.dropWhile_cons_of_neg (by simp [hc])]
      simp [headNotWs, hc]
    · rw [if_neg he, List.reverse_append]
      simp [headNotWs, hc]

/-- The result of `pyStrip` begins and ends with non-whitespace (if nonempty). -/
theorem pyStrip_headNotWs (l : List Char) :
    headNotWs (pyStrip l) = true ∧ headNotWs (pyStrip l).reverse = true := by
  unfold pyStrip
  refine ⟨headNotWs_rstrip (headNotWs_dropWhile l), ?_⟩
  rw [List.reverse_reverse]
  exact headNotWs_dropWhile _

theorem pyStrip_eq_self {l : List Char} (h1 : headNotWs l = true)
    (h2 : headNotWs l.reverse = true) : pyStrip l = l := by
  unfold pyStrip
  rw [dropWhile_eq_self_of_headNotWs h1, dropWhile_eq_self_of_headNotWs h2,
    List.reverse_reverse]

theorem replaceNl_headNotWs {l : List Char} (h : headNotWs l = true) :
    headNotWs (replaceNl l) = true := by
  cases l with
  | nil => rfl
  | cons c t =>
    have hc : pyIsSpace c = false := by simpa [headNotWs] using h
    have hcn : c ≠ '\n' := by
      intro hh
      rw [hh] at hc
      cases hc
    simp [replaceNl, headNotWs, if_neg hcn, hc]

theorem replaceNl_reverse (l : List Char) :
    (replaceNl l).reverse = replaceNl l.reverse :=
  (List.map_reverse _ _).symm

theorem nl_not_mem_replaceNl (l : List Char) : '\n' ∉ replaceNl l := by
  intro hmem
  rcases List.mem_map.mp hmem with ⟨c, -, hc⟩
  by_cases h : c = '\n'
  · rw [if_pos h] at hc
    cases hc
  · rw [if_neg h] at hc
    exact h hc

theorem replaceNl_eq_self {l : List Char} (h : '\n' ∉ l) : replaceNl l = l := by
  induction l with
  | nil => rfl
  | cons c t ih =>
    have hc : c ≠ '\n' := fun hh => h (hh ▸ List.mem_cons_self c t)
    have ht : '\n' ∉ t := fun hm => h (List.mem_cons_of_mem _ hm)
    show (if c = '\n' then ' ' else c) :: replaceNl t = c :: t
    rw [if_neg hc, ih ht]

theorem noDoubleNl_tail {c : Char} {l : List Char} (h : noDoubleNl (c :: l) = true) :
    noDoubleNl l = true := by
  cases l with
  | nil => rfl
  | cons c2 t =>
    unfold noDoubleNl at h
    by_cases hcc : c = '\n' ∧ c2 = '\n'
    · rw [if_pos hcc] at h
      cases h
    · rwa [if_neg hcc] at h

theorem noDoubleNl_of_not_mem {l : List Char} (h : '\n' ∉ l) : noDoubleNl l = true := by
  induction l with
  | nil => rfl
  | cons c t ih =>
    cases t with
    | nil => rfl
    | cons c2 t2 =>
      have hc : c ≠ '\n' := fun hh => h (hh ▸ List.mem_cons_self _ _)
      have ht : '\n' ∉ c2 :: t2 := fun hm => h (List.mem_cons_of_mem _ hm)
      unfold noDoubleNl
      rw [if_neg (fun hcc => hc hcc.1)]
      exact ih ht

/-- On a text with no paragraph break, the splitter yields the single piece
unchanged (with the pending newlines, at most one, folded back in). -/
theorem spGo_noDouble (x : List Char) : ∀ (p : Nat) (cur : List Char), p ≤ 1 →
    noDoubleNl (List.replicate p '\n' ++ x) = true →
    spGo x p cur = [cur ++ List.replicate p '\n' ++ x] := by
  induction x with
  | nil =>
    intro p cur hp _
    unfold spGo
    rw [if_neg (by omega)]
    simp
  | cons c rest ih =>
    intro p cur hp hnd
    interval_cases p
    · simp only [List.replicate, List.nil_append] at hnd ⊢
      unfold spGo
      by_cases hc : c = '\n'
      · subst hc
        rw [if_pos rfl]
        have h1 := ih 1 cur (by omega) (by simpa using hnd)
        simpa using h1
      · rw [if_neg hc, if_neg (by omega)]
        have h0 := ih 0 (cur ++ List.replicate 0 '\n' ++ [c]) (by omega)
          (by simpa using noDoubleNl_tail hnd)
        simpa using h0
    · by_cases hc : c = '\n'
      · subst hc
        exfalso
        have hb : noDoubleNl ('\n' :: '\n' :: rest) = true := by simpa using hnd
        unfold noDoubleNl at hb
        rw [if_pos ⟨rfl, rfl⟩] at hb
        cases hb
      · unfold spGo
        rw [if_neg hc, if_neg (by omega)]
        have ht : noDoubleNl rest = true := by
          have h' : noDoubleNl ('\n' :: c :: rest) = true := by simpa using hnd
          exact noDoubleNl_tail (noDoubleNl_tail h')
        have h0 := ih 0 (cur ++ List.replicate 1 '\n' ++ [c]) (by omega) (by simpa using ht)
        rw [h0]
        simp

theorem splitParas_noDouble {x : List Char} (h : noDoubleNl x = true) :
    splitParas x = [x] := by
  have hs := spGo_noDouble x 0 [] (by omega) (by simpa using h)
  simpa [splitParas] using hs

theorem normalize_noDouble {x : List Char} (h : noDoubleNl x = true) :
    _normalize_paragraphs x = replaceNl (pyStrip x) := by
  unfold _normalize_paragraphs
  rw [splitParas_noDouble h]
  simp [List.intercalate]

/-- Claim C3 as stated is false: `normalize` is not idempotent on the
nonempty text `"a\n\nb"`.  One application yields `"a\nb"` (the paragraph
break becomes a single-newline separator), and a second application treats
that single newline as hard wrapping and collapses it to a space,
yielding `"a b"`. -/
theorem C3_counterexample :
    "a\n\nb".toList ≠ []
    ∧ _normalize_paragraphs (_normalize_paragraphs "a\n\nb".toList)
        ≠ _normalize_paragraphs "a\n\nb".toList := by
  refine ⟨by decide, by decide⟩

/-- Claim C3, amended: `normalize` is idempotent on every nonempty text
that contains no paragraph break (no two consecutive newline characters);
on a text with a paragraph break, the first application separates the
paragraphs by single newlines, which a second application then collapses
into spaces. -/
theorem C3_amended_idempotent_without_para_break (x : List Char) (_hx : x ≠ [])
    (h : noDoubleNl x = true) :
    _normalize_paragraphs (_normalize_paragraphs x) = _normalize_paragraphs x := by
  rw [normalize_noDouble h]
  have hynl : '\n' ∉ replaceNl (pyStrip x) := nl_not_mem_replaceNl _
  have hnd : noDoubleNl (replaceNl (pyStrip x)) = true := noDoubleNl_of_not_mem hynl
  rw [normalize_noDouble hnd]
  have hh : headNotWs (replaceNl (pyStrip x)) = true :=
    replaceNl_headNotWs (pyStrip_headNotWs x).1
  have hr : headNotWs (replaceNl (pyStrip x)).reverse = true := by
    rw [replaceNl_reverse]
    exact replaceNl_headNotWs (pyStrip_headNotWs x).2
  rw [pyStrip_eq_self hh hr, replaceNl_eq_self hynl]

theorem C3_amended_witness :
    ("It was a dark\nand stormy night.".toList ≠ []
      ∧ noDoubleNl "It was a dark\nand stormy night.".toList = true)
    ∧ _normalize_paragraphs (_normalize_paragraphs "It was a dark\nand stormy night.".toList)
        = _normalize_paragraphs "It was a dark\nand stormy night.".toList :=
  ⟨⟨by decide, by decide⟩,
   C3_amended_idempotent_without_para_break _ (by decide) (by decide)⟩

theorem spGo_nil (p : Nat) (cur : List Char) :
    spGo [] p cur
      = if 2 ≤ p then [cur, []] else [cur ++ List.replicate p '\n'] := rfl

theorem spGo_cons (c : Char) (rest : List Char) (p : Nat) (cur : List Char) :
    spGo (c :: rest) p cur
      = if c = '\n' then spGo rest (p + 1) cur
        else if 2 ≤ p then cur :: spGo rest 0 [c]
        else spGo rest 0 (cur ++ List.replicate p '\n' ++ [c]) := rfl

/-- Leading newlines are absorbed into the pending count. -/
theorem spGo_replicate (k : Nat) : ∀ (b : List Char) (p : Nat) (cur : List Char),
    spGo (List.replicate k '\n' ++ b) p cur = spGo b (p + k) cur := by
  induction k with
  | zero =>
    intro b p cur
    simp
  | succ n ih =>
    intro b p cur
    rw [List.replicate_succ, List.cons_append, spGo_cons, if_pos rfl, ih]
    have harith : p + 1 + n = p + (n + 1) := by omega
    rw [harith]

/-- Once at least two newlines are pending, the exact count no longer
matters: any run of length at least two is one paragraph break. -/
theorem spGo_pending_ge2 (b : List Char) : ∀ (p q : Nat) (cur : List Char),
    2 ≤ p → 2 ≤ q → spGo b p cur = spGo b q cur := by
  induction b with
  | nil =>
    intro p q cur hp hq
    unfold spGo
    rw [if_pos hp, if_pos hq]
  | cons c rest ih =>
    intro p q cur hp hq
    unfold spGo
    by_cases hc : c = '\n'
    · rw [if_pos hc, if_pos hc]
      exact ih (p + 1) (q + 1) cur (by omega) (by omega)
    · rw [if_neg hc, if_neg hc, if_pos hp, if_pos hq]

theorem spGo_replace_run (a : List Char) : ∀ (b : List Char) (k m : Nat), 2 ≤ k → 2 ≤ m →
    ∀ (p : Nat) (cur : List Char),
    spGo (a ++ (List.replicate k '\n' ++ b)) p cur
      = spGo (a ++ (List.replicate m '\n' ++ b)) p cur := by
  induction a with
  | nil =>
    intro b k m hk hm p cur
    simp only [List.nil_append]
    rw [spGo_replicate, spGo_replicate]
    exact spGo_pending_ge2 b _ _ cur (by omega) (by omega)
  | cons c a' ih =>
    intro b k m hk hm p cur
    simp only [List.cons_append]
    unfold spGo
    by_cases hc : c = '\n'
    · rw [if_pos hc, if_pos hc]
      exact ih b k m hk hm (p + 1) cur
    · rw [if_neg hc, if_neg hc]
      by_cases hp : 2 ≤ p
      · rw [if_pos hp, if_pos hp, ih b k m hk hm 0 [c]]
      · rw [if_neg hp, if_neg hp]
        exact ih b k m hk hm 0 (cur ++ List.replicate p '\n' ++ [c])

/-- Claim C6: a run of two or more consecutive newline characters is one
paragraph break: replacing a run of length `k ≥ 2` anywhere in the text by
a run of any other length `m ≥ 2` yields identical `normalize` output. -/
theorem C6_para_break_run_length_irrelevant (a b : List Char) (k m : Nat)
    (hk : 2 ≤ k) (hm : 2 ≤ m) :
    _normalize_paragraphs (a ++ List.replicate k '\n' ++ b)
      = _normalize_paragraphs (a ++ List.replicate m '\n' ++ b) := by
  unfold _normalize_paragraphs splitParas
  rw [List.append_assoc, List.append_assoc, spGo_replace_run a b k m hk hm 0 []]

theorem C6_witness :
    (2 ≤ 2 ∧ 2 ≤ 5)
    ∧ _normalize_paragraphs ("x".toList ++ List.replicate 2 '\n' ++ "y".toList)
        = _normalize_paragraphs ("x".toList ++ List.replicate 5 '\n' ++ "y".toList) :=
  ⟨⟨by omega, by omega⟩,
   C6_para_break_run_length_irrelevant "x".toList "y".toList 2 5 (by omega) (by omega)⟩

theorem charsLe_cons (x y : Char) (xs ys : List Char) :
    charsLe (x :: xs) (y :: ys)
      = if x.toNat < y.toNat then true
        else if y.toNat < x.toNat then false
        else charsLe xs ys := rfl

theorem charsLe_total (a : List Char) : ∀ b, charsLe a b = true ∨ charsLe b a = true := by
  induction a with
  | nil =>
    intro b
    exact Or.inl rfl
  | cons x xs ih =>
    intro b
    cases b with
    | nil => exact Or.inr rfl
    | cons y ys =>
      rw [charsLe_cons, charsLe_cons]
      by_cases h1 : x.toNat < y.toNat
      · left
        rw [if_pos h1]
      · by_cases h2 : y.toNat < x.toNat
        · right
          rw [if_pos h2]
        · rw [if_neg h1, if_neg h2, if_neg h2, if_neg h1]
          exact ih ys

theorem charsLe_trans {a : List Char} : ∀ {b c : List Char},
    charsLe a b = true → charsLe b c = true → charsLe a c = true := by
  induction a with
  | nil => intro b c _ _; rfl
  | cons x xs ih =>
    intro b c h1 h2
    cases b with
    | nil => cases h1
    | cons y ys =>
      cases c with
      | nil => cases h2
      | cons z zs =>
        rw [charsLe_cons] at h1 h2 ⊢
        by_cases hxy : x.toNat < y.toNat
        · by_cases hyz : y.toNat < z.toNat
          · rw [if_pos (by omega)]
          · by_cases hzy : z.toNat < y.toNat
            · rw [if_neg hyz, if_pos hzy] at h2
              cases h2
            · rw [if_pos (by omega)]
        · by_cases hyx : y.toNat < x.toNat
          · rw [if_neg hxy, if_pos hyx] at h1
            cases h1
          · rw [if_neg hxy, if_neg hyx] at h1
            by_cases hyz : y.toNat < z.toNat
            · rw [if_pos (by omega)]
            · by_cases hzy : z.toNat < y.toNat
              · rw [if_neg hyz, if_pos hzy] at h2
                cases h2
              · rw [if_neg hyz, if_neg hzy] at h2
                rw [if_neg (by omega), if_neg (by omega)]
                exact ih h1 h2

/-- The ordering relation on parameter entries used by the sort. -/
def ParamR {α : Type} (p q : String × α) : Prop :=
  nameLe p q = true

theorem nameLe_total {α : Type} (p q : String × α) : ParamR p q ∨ ParamR q p :=
  charsLe_total p.1.data q.1.data

theorem nameLe_trans {α : Type} {p q r : String × α} (h1 : ParamR p q) (h2 : ParamR q r) :
    ParamR p r :=
  charsLe_trans h1 h2

theorem insertParam_perm {α : Type} (p : String × α) (l : List (String × α)) :
    List.Perm (insertParam p l) (p :: l) := by
  induction l with
  | nil => exact List.Perm.refl _
  | cons q rest ih =>
    unfold insertParam
    by_cases h : nameLe p q = true
    · rw [if_pos h]
    · rw [if_neg h]
      exact (ih.cons q).trans (List.Perm.swap p q rest)

theorem sortParams_perm {α : Type} (l : List (String × α)) :
    List.Perm (sortParams l) l := by
  induction l with
  | nil => exact List.Perm.refl _
  | cons p rest ih =>
    exact (insertParam_perm p (sortParams rest)).trans (ih.cons p)

theorem insertParam_pairwise {α : Type} (p : String × α) (l : List (String × α))
    (h : l.Pairwise ParamR) : (insertParam p l).Pairwise ParamR := by
  induction l with
  | nil => simp [insertParam]
  | cons q rest ih =>
    rcases List.pairwise_cons.mp h with ⟨hq, hrest⟩
    unfold insertParam
    by_cases hle : nameLe p q = true
    · rw [if_pos hle]
      refine List.pairwise_cons.mpr ⟨?_, h⟩
      intro r hr
      rcases List.mem_cons.mp hr with rfl | hr2
      · exact hle
      · exact nameLe_trans hle (hq r hr2)
    · rw [if_neg hle]
      refine List.pairwise_cons.mpr ⟨?_, ih hrest⟩
      intro r hr
      have hr' : r ∈ p :: rest := (insertParam_perm p rest).mem_iff.mp hr
      rcases List.mem_cons.mp hr' with rfl | hr2
      · rcases nameLe_total q r with hqr | hrq
        · exact hqr
        · exact absurd hrq hle
      · exact hq r hr2

theorem sortParams_pairwise {α : Type} (l : List (String × α)) :
    (sortParams l).Pairwise ParamR := by
  induction l with
  | nil => exact List.Pairwise.nil
  | cons p rest ih => exact insertParam_pairwise p (sortParams rest) ih

/-- An abstract parameter for instrumenting `_build_params`: a plain value,
or a stream of values standing for a `Supplier` whose callable yields
`g 0, g 1, ...` on successive invocations. -/
inductive ParamSpec where
  | plainP (v : Value)
  | streamP (g : Nat → Value)

/-- Increment the per-name invocation counter. -/
def bumpCount (n : String) (cnt : String → Nat) : String → Nat :=
  fun m => if m = n then cnt m + 1 else cnt m

/-- Realize a `ParamSpec` as a stored parameter over the counting state: a
stream becomes a `Supplier` whose callable returns the next value of the
stream and bumps the counter for its own name. -/
def embedParam (n : String) : ParamSpec → ParamValue (String → Nat)
  | .plainP v => .plain v
  | .streamP g => .supplier fun cnt => (g (cnt n), bumpCount n cnt)

def embedBundle (ps : List (String × ParamSpec)) : List (String × ParamValue (String → Nat)) :=
  ps.map fun pr => (pr.1, embedParam pr.1 pr.2)

theorem insertParam_embed (p : String × ParamSpec) (l : List (String × ParamSpec)) :
    insertParam (p.1, embedParam p.1 p.2) (embedBundle l) = embedBundle (insertParam p l) := by
  induction l with
  | nil => rfl
  | cons q rest ih =>
    show insertParam _ ((q.1, embedParam q.1 q.2) :: embedBundle rest)
      = embedBundle (insertParam p (q :: rest))
    unfold insertParam
    rw [show nameLe (p.1, embedParam p.1 p.2) (q.1, embedParam q.1 q.2) = nameLe p q from rfl]
    by_cases h : nameLe p q = true
    · rw [if_pos h, if_pos h]
      rfl
    · rw [if_neg h, if_neg h]
      show (q.1, embedParam q.1 q.2) :: insertParam _ (embedBundle rest)
        = embedBundle (q :: insertParam p rest)
      rw [ih]
      rfl

theorem sortParams_embed (ps : List (String × ParamSpec)) :
    sortParams (embedBundle ps) = embedBundle (sortParams ps) := by
  induction ps with
  | nil => rfl
  | cons p rest ih =>
    show insertParam (p.1, embedParam p.1 p.2) (sortParams (embedBundle rest))
      = embedBundle (insertParam p (sortParams rest))
    rw [ih, insertParam_embed]

theorem resolveAll_cons_plain {σ : Type} (n : String) (v : Value)
    (l : List (String × ParamValue σ)) (s : σ) :
    resolveAll ((n, .plain v) :: l) s
      = ((n, v) :: (resolveAll l s).1, (resolveAll l s).2) := rfl

theorem resolveAll_cons_supplier {σ : Type} (n : String) (f : σ → Value × σ)
    (l : List (String × ParamValue σ)) (s : σ) :
    resolveAll ((n, .supplier f) :: l) s
      = ((n, (f s).1) :: (resolveAll l (f s).2).1, (resolveAll l (f s).2).2) := rfl

/-- Resolving an instrumented bundle with distinct names: the output keeps
the names in order, each plain value passes through, and each stream's
counter is bumped exactly once, with the emitted value drawn at the
counter's entry value. -/
theorem resolveAll_embed (l : List (String × ParamSpec)) :
    ∀ cnt : String → Nat, (l.map Prod.fst).Nodup →
    ((resolveAll (embedBundle l) cnt).1.map Prod.fst = l.map Prod.fst)
    ∧ (∀ n, (∀ g, (n, ParamSpec.streamP g) ∉ l) →
        (resolveAll (embedBundle l) cnt).2 n = cnt n)
    ∧ (∀ n v, (n, ParamSpec.plainP v) ∈ l → (n, v) ∈ (resolveAll (embedBundle l) cnt).1)
    ∧ (∀ n g, (n, ParamSpec.streamP g) ∈ l →
        (n, g (cnt n)) ∈ (resolveAll (embedBundle l) cnt).1
        ∧ (resolveAll (embedBundle l) cnt).2 n = cnt n + 1) := by
  induction l with
  | nil =>
    intro cnt _
    refine ⟨rfl, fun n _ => rfl, ?_, ?_⟩
    · intro n v h
      cases h
    · intro n g h
      cases h
  | cons hd tl ih =>
    intro cnt hnd
    obtain ⟨m, sp⟩ := hd
    have hnd2 : (m :: tl.map Prod.fst).Nodup := by
      rw [List.map_cons] at hnd
      exact hnd
    have hm : m ∉ tl.map Prod.fst := (List.nodup_cons.mp hnd2).1
    have hnd' : (tl.map Prod.fst).Nodup := (List.nodup_cons.mp hnd2).2
    cases sp with
    | plainP v =>
      have hstep : embedBundle ((m, ParamSpec.plainP v) :: tl)
          = (m, .plain v) :: embedBundle tl := rfl
      rw [hstep, resolveAll_cons_plain]
      obtain ⟨ih1, ih2, ih3, ih4⟩ := ih cnt hnd'
      refine ⟨by simpa using ih1, ?_, ?_, ?_⟩
      · intro n hng
        exact ih2 n fun g hg => hng g (List.mem_cons_of_mem _ hg)
      · intro n v' hmem
        rcases List.mem_cons.mp hmem with heq | htl
        · cases heq
          exact List.mem_cons_self _ _
        · exact List.mem_cons_of_mem _ (ih3 n v' htl)
      · intro n g hmem
        rcases List.mem_cons.mp hmem with heq | htl
        · cases heq
        · obtain ⟨hin, hcnt⟩ := ih4 n g htl
          exact ⟨List.mem_cons_of_mem _ hin, hcnt⟩
    | streamP g =>
      have hstep : embedBundle ((m, ParamSpec.streamP g) :: tl)
          = (m, .supplier fun c => (g (c m), bumpCount m c)) :: embedBundle tl := rfl
      rw [hstep, resolveAll_cons_supplier]
      obtain ⟨ih1, ih2, ih3, ih4⟩ := ih (bumpCount m cnt) hnd'
      have hframe : ∀ n, n ≠ m → bumpCount m cnt n = cnt n := by
        intro n hne
        simp [bumpCount, hne]
      have hbumpm : bumpCount m cnt m = cnt m + 1 := by
        simp [bumpCount]
      refine ⟨by simpa using ih1, ?_, ?_, ?_⟩
      · intro n hng
        have hnem : n ≠ m := by
          intro heq
          exact hng g (heq ▸ List.mem_cons_self _ _)
        rw [ih2 n fun g' hg' => hng g' (List.mem_cons_of_mem _ hg'), hframe n hnem]
      · intro n v' hmem
        rcases List.mem_cons.mp hmem with heq | htl
        · cases heq
        · exact List.mem_cons_of_mem _ (ih3 n v' htl)
      · intro n g' hmem
        rcases List.mem_cons.mp hmem with heq | htl
        · cases heq
          have hnotl : ∀ g'', (m, ParamSpec.streamP g'') ∉ tl := by
            intro g'' hg''
            exact hm (List.mem_map.mpr ⟨_, hg'', rfl⟩)
          refine ⟨List.mem_cons_self _ _, ?_⟩
          rw [ih2 m hnotl, hbumpm]
        · have hnem : n ≠ m := by
            intro heq
            subst heq
            exact hm (List.mem_map.mpr ⟨_, htl, rfl⟩)
          obtain ⟨hin, hcnt⟩ := ih4 n g' htl
          rw [hframe n hnem] at hin hcnt
          exact ⟨List.mem_cons_of_mem _ hin, hcnt⟩

/-- With distinct names, an entry's payload is determined by its name. -/
theorem mem_unique_of_nodup_names {α : Type} {l : List (String × α)}
    (h : (l.map Prod.fst).Nodup) {n : String} {a b : α}
    (ha : (n, a) ∈ l) (hb : (n, b) ∈ l) : a = b := by
  induction l with
  | nil => cases ha
  | cons hd tl ih =>
    rw [List.map_cons] at h
    have hm : hd.1 ∉ tl.map Prod.fst := (List.nodup_cons.mp h).1
    have h' : (tl.map Prod.fst).Nodup := (List.nodup_cons.mp h).2
    rcases List.mem_cons.mp ha with heqa | hta
    · rcases List.mem_cons.mp hb with heqb | htb
      · rw [← heqa] at heqb
        injection heqb with _ h2
        exact h2.symm
      · rw [← heqa] at hm
        exact absurd (List.mem_map.mpr ⟨_, htb, rfl⟩) hm
    · rcases List.mem_cons.mp hb with heqb | htb
      · rw [← heqb] at hm
        exact absurd (List.mem_map.mpr ⟨_, hta, rfl⟩) hm
      · exact ih h' hta htb

/-- Claim C5: `_build_params` iterates the stored parameters in
deterministic lexicographic order by name (the output's name sequence is
sorted and is a permutation of the stored names); every plain value passes
through unchanged with its invocation counter untouched; and every
Deferred Value (`Supplier`) is resolved by invoking its wrapped callable
exactly once per call — its counter is bumped by exactly one and the
emitted value is the stream's value at the pre-call counter (so a second
call would draw the next value of the stream while plain parameters stay
constant). -/
theorem C5_build_params_sorted_plain_passthrough_suppliers_once
    (t : Value) (ps : List (String × ParamSpec)) (cnt : String → Nat)
    (hnd : (ps.map Prod.fst).Nodup) :
    ((Completer._build_params ⟨t, embedBundle ps⟩ cnt).1.map Prod.fst).Pairwise
        (fun a b => charsLe a.data b.data = true)
    ∧ List.Perm ((Completer._build_params ⟨t, embedBundle ps⟩ cnt).1.map Prod.fst)
        (ps.map Prod.fst)
    ∧ (∀ n v, (n, ParamSpec.plainP v) ∈ ps →
        (n, v) ∈ (Completer._build_params ⟨t, embedBundle ps⟩ cnt).1
        ∧ (Completer._build_params ⟨t, embedBundle ps⟩ cnt).2 n = cnt n)
    ∧ (∀ n g, (n, ParamSpec.streamP g) ∈ ps →
        (n, g (cnt n)) ∈ (Completer._build_params ⟨t, embedBundle ps⟩ cnt).1
        ∧ (Completer._build_params ⟨t, embedBundle ps⟩ cnt).2 n = cnt n + 1) := by
  have hbp : Completer._build_params ⟨t, embedBundle ps⟩ cnt
      = resolveAll (embedBundle (sortParams ps)) cnt := by
    unfold Completer._build_params
    rw [show (Completer.mk t (embedBundle ps)).pdict = embedBundle ps from rfl,
      sortParams_embed]
  have hpermnames : List.Perm ((sortParams ps).map Prod.fst) (ps.map Prod.fst) :=
    (sortParams_perm ps).map Prod.fst
  have hnd' : ((sortParams ps).map Prod.fst).Nodup := hpermnames.nodup_iff.mpr hnd
  obtain ⟨h1, h2, h3, h4⟩ := resolveAll_embed (sortParams ps) cnt hnd'
  rw [hbp]
  refine ⟨?_, ?_, ?_, ?_⟩
  · rw [h1]
    have hpw := sortParams_pairwise ps
    exact List.Pairwise.map Prod.fst (fun a b hab => hab) hpw
  · rw [h1]
    exact hpermnames
  · intro n v hmem
    have hmem' : (n, ParamSpec.plainP v) ∈ sortParams ps :=
      (sortParams_perm ps).mem_iff.mpr hmem
    refine ⟨h3 n v hmem', h2 n ?_⟩
    intro g hg
    have hg' : (n, ParamSpec.streamP g) ∈ ps := (sortParams_perm ps).mem_iff.mp hg
    cases mem_unique_of_nodup_names hnd hmem hg'
  · intro n g hmem
    have hmem' : (n, ParamSpec.streamP g) ∈ sortParams ps :=
      (sortParams_perm ps).mem_iff.mpr hmem
    exact h4 n g hmem'

theorem C5_witness :
    (([("seed", ParamSpec.streamP fun k => Value.vint k),
       ("do_sample", ParamSpec.plainP (Value.vbool true))].map Prod.fst).Nodup)
    ∧ (("do_sample", Value.vbool true)
        ∈ (Completer._build_params
            ⟨Value.vstr "Hi".toList,
             embedBundle [("seed", ParamSpec.streamP fun k => Value.vint k),
               ("do_sample", ParamSpec.plainP (Value.vbool true))]⟩
            (fun _ => 0)).1
        ∧ (Completer._build_params
            ⟨Value.vstr "Hi".toList,
             embedBundle [("seed", ParamSpec.streamP fun k => Value.vint k),
               ("do_sample", ParamSpec.plainP (Value.vbool true))]⟩
            (fun _ => 0)).2 "do_sample" = (fun _ => (0 : Nat)) "do_sample")
    ∧ (("seed", Value.vint 0)
        ∈ (Completer._build_params
            ⟨Value.vstr "Hi".toList,
             embedBundle [("seed", ParamSpec.streamP fun k => Value.vint k),
               ("do_sample", ParamSpec.plainP (Value.vbool true))]⟩
            (fun _ => 0)).1
        ∧ (Completer._build_params
            ⟨Value.vstr "Hi".toList,
             embedBundle [("seed", ParamSpec.streamP fun k => Value.vint k),
               ("do_sample", ParamSpec.plainP (Value.vbool true))]⟩
            (fun _ => 0)).2 "seed" = (fun _ => (0 : Nat)) "seed" + 1) :=
  ⟨by decide,
   (C5_build_params_sorted_plain_passthrough_suppliers_once
     (Value.vstr "Hi".toList)
     [("seed", ParamSpec.streamP fun k => Value.vint k),
      ("do_sample", ParamSpec.plainP (Value.vbool true))]
     (fun _ => 0) (by decide)).2.2.1 "do_sample" (Value.vbool true)
     (List.mem_cons_of_mem _ (List.mem_cons_self _ _)),
   (C5_build_params_sorted_plain_passthrough_suppliers_once
     (Value.vstr "Hi".toList)
     [("seed", ParamSpec.streamP fun k => Value.vint k),
      ("do_sample", ParamSpec.plainP (Value.vbool true))]
     (fun _ => 0) (by decide)).2.2.2 "seed" (fun k => Value.vint k)
     (List.mem_cons_self _ _)⟩

theorem intercalate_single (sep a : List Char) : List.intercalate sep [a] = a := by
  simp [List.intercalate]

theorem intercalate_cons_cons (sep a b : List Char) (l : List (List Char)) :
    List.intercalate sep (a :: b :: l) = a ++ sep ++ List.intercalate sep (b :: l) := by
  simp [List.intercalate]

theorem intercalate_head_ne_nil {p : List Char} (sep : List Char)
    (rest : List (List Char)) (hp : p ≠ []) : List.intercalate sep (p :: rest) ≠ [] := by
  cases rest with
  | nil =>
    rw [intercalate_single]
    exact hp
  | cons q rest' =>
    rw [intercalate_cons_cons, List.append_assoc]
    intro h
    exact hp (List.append_eq_nil.mp h).1

theorem headNotWs_append_left {p : List Char} (r : List Char) (hp : p ≠ []) :
    headNotWs (p ++ r) = headNotWs p := by
  cases p with
  | nil => exact absurd rfl hp
  | cons c t => rfl

theorem headNotWs_intercalate_head {p : List Char} (rest : List (List Char))
    (hp : p ≠ []) (hh : headNotWs p = true) :
    headNotWs (List.intercalate ['\n'] (p :: rest)) = true := by
  cases rest with
  | nil => rwa [intercalate_single]
  | cons q rest' =>
    rw [intercalate_cons_cons, List.append_assoc, headNotWs_append_left _ hp]
    exact hh

theorem headNotWs_intercalate_reverse (ps : List (List Char)) : ps ≠ [] →
    (∀ p ∈ ps, p ≠ [] ∧ headNotWs p.reverse = true) →
    headNotWs (List.intercalate ['\n'] ps).reverse = true := by
  induction ps with
  | nil =>
    intro h _
    exact absurd rfl h
  | cons p rest ih =>
    intro _ hall
    cases rest with
    | nil =>
      rw [intercalate_single]
      exact (hall p (List.mem_cons_self _ _)).2
    | cons q rest' =>
      rw [intercalate_cons_cons, List.append_assoc, List.reverse_append, List.reverse_append]
      have hq : List.intercalate ['\n'] (q :: rest') ≠ [] :=
        intercalate_head_ne_nil ['\n'] rest' (hall q (List.mem_cons_of_mem _ (List.mem_cons_self _ _))).1
      have hqr : (List.intercalate ['\n'] (q :: rest')).reverse ≠ [] := by
        simpa using hq
      rw [List.append_assoc, headNotWs_append_left _ hqr]
      exact ih (by simp) fun r hr => hall r (List.mem_cons_of_mem _ hr)

theorem modifyHead_append_of_ne_nil {α : Type} (f : α → α) (A B : List α) (h : A ≠ []) :
    (A ++ B).modifyHead f = A.modifyHead f ++ B := by
  cases A with
  | nil => exact absurd rfl h
  | cons a t => rfl

theorem splitOnP_append_of_p {c : Char} (hc : pyIsSpace c = true) (xs ys : List Char) :
    (xs ++ c :: ys).splitOnP pyIsSpace
      = xs.splitOnP pyIsSpace ++ ys.splitOnP pyIsSpace := by
  induction xs with
  | nil =>
    rw [List.nil_append, List.splitOnP_cons, if_pos hc, List.splitOnP_nil]
    rfl
  | cons x xs' ih =>
    rw [List.cons_append, List.splitOnP_cons, List.splitOnP_cons]
    by_cases hx : pyIsSpace x = true
    · rw [if_pos hx, if_pos hx, ih]
      rfl
    · rw [if_neg hx, if_neg hx, ih,
        modifyHead_append_of_ne_nil _ _ _ (List.splitOnP_ne_nil _ _)]

theorem wordsOf_append_ws {c : Char} (hc : pyIsSpace c = true) (xs ys : List Char) :
    wordsOf (xs ++ c :: ys) = wordsOf xs ++ wordsOf ys := by
  unfold wordsOf
  rw [splitOnP_append_of_p hc, List.filter_append]

theorem wordsOf_intercalate_ws {c : Char} (hc : pyIsSpace c = true) :
    ∀ ls : List (List Char), wordsOf (List.intercalate [c] ls) = (ls.map wordsOf).flatten := by
  intro ls
  induction ls with
  | nil => rfl
  | cons a rest ih =>
    cases rest with
    | nil =>
      rw [intercalate_single]
      simp
    | cons b rest' =>
      rw [intercalate_cons_cons, List.append_assoc,
        show ([c] ++ List.intercalate [c] (b :: rest'))
          = c :: List.intercalate [c] (b :: rest') from rfl,
        wordsOf_append_ws hc, ih]
      rfl

theorem splitOnP_pieces_no_p (cs : List Char) : ∀ piece ∈ cs.splitOnP pyIsSpace,
    ∀ ch ∈ piece, pyIsSpace ch = false := by
  induction cs with
  | nil =>
    intro piece hp ch hch
    rw [List.splitOnP_nil] at hp
    rcases List.mem_singleton.mp hp with rfl
    cases hch
  | cons c cs' ih =>
    intro piece hp ch hch
    rw [List.splitOnP_cons] at hp
    by_cases hc : pyIsSpace c = true
    · rw [if_pos hc] at hp
      rcases List.mem_cons.mp hp with rfl | hp'
      · cases hch
      · exact ih piece hp' ch hch
    · rw [if_neg hc] at hp
      rcases hsp : cs'.splitOnP pyIsSpace with _ | ⟨h1, t1⟩
      · exact absurd hsp (List.splitOnP_ne_nil _ _)
      · rw [hsp] at hp
        rcases List.mem_cons.mp hp with rfl | hp'
        · rcases List.mem_cons.mp hch with rfl | hch'
          · simpa using hc
          · exact ih h1 (by rw [hsp]; exact List.mem_cons_self _ _) ch hch'
        · exact ih piece (by rw [hsp]; exact List.mem_cons_of_mem _ hp') ch hch

theorem wordsOf_tokens {cs : List Char} : ∀ w ∈ wordsOf cs,
    w ≠ [] ∧ ∀ ch ∈ w, pyIsSpace ch = false := by
  intro w hw
  unfold wordsOf at hw
  have h1 := List.mem_filter.mp hw
  refine ⟨?_, splitOnP_pieces_no_p cs w h1.1⟩
  have h2 := h1.2
  simp only [Bool.not_eq_true'] at h2
  intro hnil
  rw [hnil] at h2
  cases h2

theorem wordsOf_single {w : List Char} (hne : w ≠ [])
    (hws : ∀ ch ∈ w, pyIsSpace ch = false) : wordsOf w = [w] := by
  unfold wordsOf
  rw [List.splitOnP_eq_single _ _ (fun x hx => by simp [hws x hx])]
  cases w with
  | nil => exact absurd rfl hne
  | cons a t => rfl

theorem wrapGo_cons (W : Nat) (w : List Char) (ws line : List (List Char)) (len : Nat) :
    wrapGo W (w :: ws) line len
      = if len + 1 + w.length ≤ W then wrapGo W ws (line ++ [w]) (len + 1 + w.length)
        else line :: wrapGo W ws [w] w.length := rfl

theorem wrapGo_flatten (W : Nat) : ∀ (ws line : List (List Char)) (len : Nat),
    (wrapGo W ws line len).flatten = line ++ ws := by
  intro ws
  induction ws with
  | nil =>
    intro line len
    simp [wrapGo]
  | cons w ws' ih =>
    intro line len
    rw [wrapGo_cons]
    by_cases h : len + 1 + w.length ≤ W
    · rw [if_pos h, ih]
      simp
    · rw [if_neg h]
      show line ++ (wrapGo W ws' [w] w.length).flatten = line ++ (w :: ws')
      rw [ih]
      rfl

theorem wrapLines_flatten (g : List Char) : (wrapLines g).flatten = wordsOf g := by
  unfold wrapLines
  rcases hw : wordsOf g with _ | ⟨w, ws⟩
  · rfl
  · rw [wrapGo_flatten]
    rfl

theorem flatten_map_wordsOf (line : List (List Char))
    (h : ∀ w ∈ line, wordsOf w = [w]) : (line.map wordsOf).flatten = line := by
  induction line with
  | nil => rfl
  | cons w rest ih =>
    show wordsOf w ++ (rest.map wordsOf).flatten = w :: rest
    rw [h w (List.mem_cons_self _ _), ih fun v hv => h v (List.mem_cons_of_mem _ hv)]
    rfl

/-- Word preservation for one paragraph: the whitespace-separated words of
the wrapped output are exactly those of the input, in order. -/
theorem wordsOf_prettyPara (g : List Char) : wordsOf (prettyPara g) = wordsOf g := by
  unfold prettyPara textwrapWrap
  rw [wordsOf_intercalate_ws (c := '\n') rfl, List.map_map]
  have hline : ∀ line ∈ wrapLines g,
      wordsOf (List.intercalate [' '] line) = line := by
    intro line hl
    rw [wordsOf_intercalate_ws (c := ' ') rfl]
    apply flatten_map_wordsOf
    intro w hw
    have hwg : w ∈ wordsOf g := by
      rw [← wrapLines_flatten g]
      exact List.mem_flatten.mpr ⟨line, hl, hw⟩
    obtain ⟨hne, hws⟩ := wordsOf_tokens w hwg
    exact wordsOf_single hne hws
  have hmaps : List.map (wordsOf ∘ ([' '].intercalate)) (wrapLines g)
      = List.map id (wrapLines g) :=
    List.map_congr_left fun line hl => hline line hl
  rw [hmaps, List.map_id, wrapLines_flatten]

theorem intercalate_space_append (a : List Char) : ∀ (rest : List (List Char)) (w : List Char),
    List.intercalate [' '] ((a :: rest) ++ [w])
      = List.intercalate [' '] (a :: rest) ++ ' ' :: w := by
  intro rest
  induction rest generalizing a with
  | nil =>
    intro w
    rw [show ([a] ++ [w] : List (List Char)) = [a, w] from rfl, intercalate_cons_cons,
      intercalate_single, intercalate_single]
    simp
  | cons b rest' ih =>
    intro w
    rw [show ((a :: b :: rest') ++ [w] : List (List Char))
        = a :: ((b :: rest') ++ [w]) from rfl]
    rw [show ((b :: rest') ++ [w] : List (List Char)) = b :: (rest' ++ [w]) from rfl]
    rw [intercalate_cons_cons, show (b :: (rest' ++ [w]) : List (List Char))
        = (b :: rest') ++ [w] from rfl, ih, intercalate_cons_cons]
    simp

theorem wrapGo_width (W : Nat) : ∀ (ws line : List (List Char)) (len : Nat), line ≠ [] →
    len = (List.intercalate [' '] line).length →
    (len ≤ W ∨ ∃ w, line = [w]) →
    ∀ l ∈ wrapGo W ws line len,
      l ≠ [] ∧ ((List.intercalate [' '] l).length ≤ W ∨ ∃ w, l = [w]) := by
  intro ws
  induction ws with
  | nil =>
    intro line len hne hlen hinv l hl
    rcases List.mem_singleton.mp hl with rfl
    exact ⟨hne, by rw [← hlen]; exact hinv⟩
  | cons w ws' ih =>
    intro line len hne hlen hinv l hl
    rw [wrapGo_cons] at hl
    by_cases h : len + 1 + w.length ≤ W
    · rw [if_pos h] at hl
      refine ih (line ++ [w]) (len + 1 + w.length) (by simp) ?_ (Or.inl h) l hl
      obtain ⟨a, rest, rfl⟩ : ∃ a rest, line = a :: rest := by
        cases line with
        | nil => exact absurd rfl hne
        | cons a rest => exact ⟨a, rest, rfl⟩
      rw [intercalate_space_append, List.length_append, ← hlen]
      simp
      omega
    · rw [if_neg h] at hl
      rcases List.mem_cons.mp hl with rfl | hl'
      · exact ⟨hne, by rw [← hlen]; exact hinv⟩
      · refine ih [w] w.length (by simp) ?_ (Or.inr ⟨w, rfl⟩) l hl'
        rw [intercalate_single]

theorem wrapLines_width (g : List Char) : ∀ line ∈ wrapLines g,
    line ≠ [] ∧ ((List.intercalate [' '] line).length ≤ wrapWidth ∨ ∃ w, line = [w]) := by
  intro line hl
  unfold wrapLines at hl
  rcases hw : wordsOf g with _ | ⟨w, ws⟩
  · rw [hw] at hl
    cases hl
  · rw [hw] at hl
    exact wrapGo_width wrapWidth ws [w] w.length (by simp)
      (by rw [intercalate_single]) (Or.inr ⟨w, rfl⟩) line hl

/-- Claim C7: for a text in normalized form (a nonempty list of nonempty
single-line paragraphs, each free of newlines and of leading or trailing
whitespace, joined by single newlines), `prettify` emits one block per
paragraph joined by blank lines; each block contains exactly the same
sequence of whitespace-separated words as its paragraph (no word lost,
reordered, or split mid-token); and every emitted line either fits the
target width or consists of a single (unsplit) word. -/
theorem C7_prettify_preserves_words (ps : List (List Char)) (hne : ps ≠ [])
    (hp : ∀ p ∈ ps, p ≠ [] ∧ '\n' ∉ p ∧ headNotWs p = true ∧ headNotWs p.reverse = true) :
    _prettify_paragraphs (List.intercalate ['\n'] ps)
      = List.intercalate ['\n', '\n'] (ps.map prettyPara)
    ∧ (∀ p ∈ ps, wordsOf (prettyPara p) = wordsOf p)
    ∧ (∀ p ∈ ps, ∀ line ∈ wrapLines p,
        line ≠ [] ∧ ((List.intercalate [' '] line).length ≤ wrapWidth ∨ ∃ w, line = [w])) := by
  refine ⟨?_, fun p _ => wordsOf_prettyPara p, fun p _ => wrapLines_width p⟩
  unfold _prettify_paragraphs
  have hstrip : pyStrip (List.intercalate ['\n'] ps) = List.intercalate ['\n'] ps := by
    obtain ⟨p, rest, rfl⟩ : ∃ p rest, ps = p :: rest := by
      cases ps with
      | nil => exact absurd rfl hne
      | cons p rest => exact ⟨p, rest, rfl⟩
    apply pyStrip_eq_self
    · exact headNotWs_intercalate_head rest (hp p (List.mem_cons_self _ _)).1
        (hp p (List.mem_cons_self _ _)).2.2.1
    · exact headNotWs_intercalate_reverse _ (by simp)
        fun q hq => ⟨(hp q hq).1, (hp q hq).2.2.2⟩
  rw [hstrip]
  unfold splitOnNl
  rw [List.splitOn_intercalate ps '\n' (fun l hl => (hp l hl).2.1) hne]

theorem C7_witness :
    ((["ab cd".toList, "ef".toList] : List (List Char)) ≠ []
      ∧ (∀ p ∈ (["ab cd".toList, "ef".toList] : List (List Char)),
          p ≠ [] ∧ '\n' ∉ p ∧ headNotWs p = true ∧ headNotWs p.reverse = true))
    ∧ (_prettify_paragraphs (List.intercalate ['\n'] ["ab cd".toList, "ef".toList])
        = List.intercalate ['\n', '\n'] (["ab cd".toList, "ef".toList].map prettyPara)
      ∧ (∀ p ∈ (["ab cd".toList, "ef".toList] : List (List Char)),
          wordsOf (prettyPara p) = wordsOf p)
      ∧ (∀ p ∈ (["ab cd".toList, "ef".toList] : List (List Char)), ∀ line ∈ wrapLines p,
          line ≠ []
          ∧ ((List.intercalate [' '] line).length ≤ wrapWidth ∨ ∃ w, line = [w]))) :=
  ⟨⟨by decide, by decide⟩,
   C7_prettify_preserves_words ["ab cd".toList, "ef".toList] (by decide) (by decide)⟩

theorem C4_amended_witness :
    ((∃ st', sampleCompleter.setText (.vstr []) = .ok st')
        ↔ ∃ cs, Value.vstr [] = .vstr cs ∧ cs ≠ [])
    ∧ (∃ cs, (Completer.mk (Value.vstr "Hi".toList)
          (dictUpdate (defaultParams unitRand) []))._text = .vstr cs ∧ cs ≠ []) :=
  ⟨(C4_amended_setter_validates_but_complete_bypasses (σ := Unit)).1 sampleCompleter (.vstr []),
   (C4_amended_setter_validates_but_complete_bypasses (σ := Unit)).2.1 unitRand
     (.vstr "Hi".toList) [] _ rfl⟩

end Complete
